import Mathlib

/-!
Shallow embedding of the mandybrot rendering core (src/src/complex.rs,
src/src/fractal.rs, src/src/attractor.rs, src/src/sample.rs, src/src/render.rs).

The Rust code is generic over a floating-point scalar `T: Float`; the embedding
is generic over a `LinearOrderedField`, with the transcendental operations of
the `Float` trait (sin, cos, sinh, cosh, exp) abstracted into a record of
functions, so that every definition is executable over `ℚ`.  32-bit unsigned
arithmetic (`u32`) is modelled over `ℕ` with explicit reduction modulo `2^32`
where the code can overflow (wrapping release semantics).  The random sampling
of `render.rs::generate_initial_positions` is modelled over `ℝ`, with the
underlying uniform draws passed in explicitly.
-/

set_option maxRecDepth 4000

namespace Mandybrot

/-- The complex-number pair of src/src/complex.rs (`struct Complex<T>`). -/
structure Complex (T : Type) where
  real : T
  imag : T
deriving DecidableEq, Repr

/-- Embeds `Complex::new` of src/src/complex.rs. -/
def Complex.new {T : Type} (real imag : T) : Complex T :=
  ⟨real, imag⟩

/-- Complex addition (`impl Add for Complex<T>`). -/
instance {T : Type} [Add T] : Add (Complex T) :=
  ⟨fun a b => ⟨a.real + b.real, a.imag + b.imag⟩⟩

/-- Complex subtraction (`impl Sub for Complex<T>`). -/
instance {T : Type} [Sub T] : Sub (Complex T) :=
  ⟨fun a b => ⟨a.real - b.real, a.imag - b.imag⟩⟩

/-- Complex multiplication (`impl Mul for Complex<T>`). -/
instance {T : Type} [Add T] [Sub T] [Mul T] : Mul (Complex T) :=
  ⟨fun a b => ⟨a.real * b.real - a.imag * b.imag, a.real * b.imag + a.imag * b.real⟩⟩

/-- Complex division by the conjugate-normalized formula (`impl Div for Complex<T>`). -/
instance {T : Type} [Add T] [Sub T] [Mul T] [Div T] : Div (Complex T) :=
  ⟨fun a b =>
    ⟨(a.real * b.real + a.imag * b.imag) / (b.real * b.real + b.imag * b.imag),
     (a.imag * b.real - a.real * b.imag) / (b.real * b.real + b.imag * b.imag)⟩⟩

/-- Embeds `Complex::norm_sqr` of src/src/complex.rs: `re*re + im*im`. -/
def Complex.norm_sqr {T : Type} [Add T] [Mul T] (z : Complex T) : T :=
  z.real * z.real + z.imag * z.imag

/-- Embeds `Complex::powi` of src/src/complex.rs: repeated multiplication, `n = 0` gives one. -/
def Complex.powi {T : Type} [LinearOrderedField T] (self : Complex T) (n : ℕ) : Complex T :=
  if n = 0 then Complex.new 1 0
  else (List.range (n - 1)).foldl (fun result _ => result * self) self

/-- The transcendental operations of the Rust `Float` trait used by the
iteration formulas; the embedding is parametric in them (a concrete build
would instantiate them with the genuine functions of its scalar type). -/
structure FloatOps (T : Type) where
  sin : T → T
  cos : T → T
  sinh : T → T
  cosh : T → T
  exp : T → T

/-- The `enum Fractal<T>` of src/src/fractal.rs. -/
inductive Fractal (T : Type) where
  | Mandelbrot
  | BurningShip
  | Julia (c : Complex T)
  | Tricorn
  | Multibrot (power : ℕ)
  | Newton (epsilon : T)
  | Phoenix (c : Complex T)
  | Clifford (a b c d : T)
  | DeJong (a b c d : T)
  | Tinkerbell (a b c d : T)
  | CelticMandelbrot
  | SineMandelbrot
  | CosineMandelbrot
  | ExponentialMandelbrot
deriving DecidableEq

/-- The shared escape-time while loop of src/src/fractal.rs:
`while state.norm_sqr < 4 && n < max_iter { state = step state; n += 1 }`.
The first argument counts the loop iterations still allowed (`max_iter - n`),
so a call with fuel `max_iter` and counter `0` is exactly the source loop. -/
def escapeLoop {T σ : Type} [LinearOrderedField T] (nsq : σ → T) (step : σ → σ) :
    ℕ → σ → ℕ → ℕ
  | 0, _, n => n
  | fuel + 1, s, n => if nsq s < 4 then escapeLoop nsq step fuel (step s) (n + 1) else n

/-- Embeds `fractal.rs::mandelbrot`: `z ← z*z + c` from `z = 0`. -/
def mandelbrot {T : Type} [LinearOrderedField T] (c : Complex T) (max_iter : ℕ) : ℕ :=
  escapeLoop Complex.norm_sqr (fun z => z * z + c) max_iter (Complex.new 0 0) 0

/-- Embeds `fractal.rs::burning_ship`: `z ← (|re z|, |im z|)² + c` from `z = 0`. -/
def burning_ship {T : Type} [LinearOrderedField T] (c : Complex T) (max_iter : ℕ) : ℕ :=
  escapeLoop Complex.norm_sqr
    (fun z =>
      let w := Complex.new |z.real| |z.imag|
      w * w + c)
    max_iter (Complex.new 0 0) 0

/-- Embeds `fractal.rs::julia`: `z ← z*z + c` from `z = p`. -/
def julia {T : Type} [LinearOrderedField T] (p c : Complex T) (max_iter : ℕ) : ℕ :=
  escapeLoop Complex.norm_sqr (fun z => z * z + c) max_iter p 0

/-- Embeds `fractal.rs::tricorn`: `z ← (conj z)² + c` from `z = 0`. -/
def tricorn {T : Type} [LinearOrderedField T] (c : Complex T) (max_iter : ℕ) : ℕ :=
  escapeLoop Complex.norm_sqr
    (fun z => Complex.new z.real (-z.imag) * Complex.new z.real (-z.imag) + c)
    max_iter (Complex.new 0 0) 0

/-- Embeds `fractal.rs::multibrot`: `z ← z.powi power + c` from `z = 0`. -/
def multibrot {T : Type} [LinearOrderedField T] (c : Complex T) (power max_iter : ℕ) : ℕ :=
  escapeLoop Complex.norm_sqr (fun z => z.powi power + c) max_iter (Complex.new 0 0) 0

/-- One Newton update of `fractal.rs::newton`: the step
`dz = (z³ - 1) / (3 z²)` that is subtracted from `z`. -/
def newton_step {T : Type} [LinearOrderedField T] (z : Complex T) : Complex T :=
  (z * z * z - Complex.new 1 0) / (Complex.new 3 0 * z * z)

/-- The while loop of `fractal.rs::newton`:
`while n < max_iter { dz = newton_step z; z = z - dz; if dz.norm_sqr < epsilon break; n += 1 }`.
The first argument counts the iterations still allowed (`max_iter - n`). -/
def newtonLoop {T : Type} [LinearOrderedField T] (epsilon : T) :
    ℕ → Complex T → ℕ → ℕ
  | 0, _, n => n
  | fuel + 1, z, n =>
    let dz := newton_step z
    if dz.norm_sqr < epsilon then n else newtonLoop epsilon fuel (z - dz) (n + 1)

/-- Embeds `fractal.rs::newton`. -/
def newton {T : Type} [LinearOrderedField T] (c : Complex T) (epsilon : T) (max_iter : ℕ) : ℕ :=
  newtonLoop epsilon max_iter c 0

/-- Embeds `fractal.rs::phoenix`: state `(z, z_old)`, `z ← z² + c·z_old + p` from `(0, 0)`. -/
def phoenix {T : Type} [LinearOrderedField T] (p c : Complex T) (max_iter : ℕ) : ℕ :=
  escapeLoop (fun s : Complex T × Complex T => s.1.norm_sqr)
    (fun s => (s.1 * s.1 + c * s.2 + p, s.1))
    max_iter (Complex.new 0 0, Complex.new 0 0) 0

/-- Embeds `fractal.rs::clifford` (the escape-time variant): trigonometric step from `z = p`. -/
def clifford {T : Type} [LinearOrderedField T] (ops : FloatOps T) (p : Complex T)
    (a b c d : T) (max_iter : ℕ) : ℕ :=
  escapeLoop Complex.norm_sqr
    (fun z =>
      Complex.new (ops.sin (a * z.imag) + c * ops.cos (a * z.real))
        (ops.sin (b * z.real) + d * ops.cos (b * z.imag)))
    max_iter p 0

/-- Embeds `fractal.rs::de_jong` (the escape-time variant): trigonometric step from `z = start`. -/
def de_jong {T : Type} [LinearOrderedField T] (ops : FloatOps T) (start : Complex T)
    (max_iter : ℕ) (a b c d : T) : ℕ :=
  escapeLoop Complex.norm_sqr
    (fun z =>
      Complex.new (ops.sin (a * z.imag) - ops.cos (b * z.real))
        (ops.sin (c * z.real) - ops.cos (d * z.imag)))
    max_iter start 0

/-- Embeds `fractal.rs::tinkerbell` (the escape-time variant): polynomial step from `z = start`. -/
def tinkerbell {T : Type} [LinearOrderedField T] (start : Complex T)
    (max_iter : ℕ) (a b c d : T) : ℕ :=
  escapeLoop Complex.norm_sqr
    (fun z =>
      Complex.new (z.real * z.real - z.imag * z.imag + a * z.real + b * z.imag)
        (2 * z.real * z.imag + c * z.real + d * z.imag))
    max_iter start 0

/-- Embeds `fractal.rs::celtic_mandelbrot`: absolute value on the real part, from `z = 0`. -/
def celtic_mandelbrot {T : Type} [LinearOrderedField T] (c : Complex T) (max_iter : ℕ) : ℕ :=
  escapeLoop Complex.norm_sqr
    (fun z =>
      Complex.new |z.real * z.real - z.imag * z.imag| (2 * z.real * z.imag) + c)
    max_iter (Complex.new 0 0) 0

/-- Embeds `fractal.rs::sine_mandelbrot`: `z ← sin z + c` componentwise, from `z = 0`. -/
def sine_mandelbrot {T : Type} [LinearOrderedField T] (ops : FloatOps T) (c : Complex T)
    (max_iter : ℕ) : ℕ :=
  escapeLoop Complex.norm_sqr
    (fun z =>
      Complex.new (ops.sin z.real * ops.cosh z.imag) (ops.cos z.real * ops.sinh z.imag) + c)
    max_iter (Complex.new 0 0) 0

/-- Embeds `fractal.rs::cosine_mandelbrot`: `z ← cos z + c` componentwise, from `z = 0`. -/
def cosine_mandelbrot {T : Type} [LinearOrderedField T] (ops : FloatOps T) (c : Complex T)
    (max_iter : ℕ) : ℕ :=
  escapeLoop Complex.norm_sqr
    (fun z =>
      Complex.new (ops.cos z.real * ops.cosh z.imag) (-(ops.sin z.real * ops.sinh z.imag)) + c)
    max_iter (Complex.new 0 0) 0

/-- Embeds `fractal.rs::exponential_mandelbrot`: `z ← exp z + c` componentwise, from `z = 0`. -/
def exponential_mandelbrot {T : Type} [LinearOrderedField T] (ops : FloatOps T) (c : Complex T)
    (max_iter : ℕ) : ℕ :=
  escapeLoop Complex.norm_sqr
    (fun z =>
      Complex.new (ops.exp z.real * ops.cos z.imag) (ops.exp z.real * ops.sin z.imag) + c)
    max_iter (Complex.new 0 0) 0

/-- Embeds `Fractal::sample` of src/src/fractal.rs: dispatch on the fractal kind. -/
def Fractal.sample {T : Type} [LinearOrderedField T] (ops : FloatOps T) (f : Fractal T)
    (p : Complex T) (max_iter : ℕ) : ℕ :=
  match f with
  | .Mandelbrot => mandelbrot p max_iter
  | .BurningShip => burning_ship p max_iter
  | .Julia c => julia p c max_iter
  | .Tricorn => tricorn p max_iter
  | .Multibrot power => multibrot p power max_iter
  | .Newton epsilon => newton p epsilon max_iter
  | .Phoenix c => phoenix p c max_iter
  | .Clifford a b c d => clifford ops p a b c d max_iter
  | .DeJong a b c d => de_jong ops p max_iter a b c d
  | .Tinkerbell a b c d => tinkerbell p max_iter a b c d
  | .CelticMandelbrot => celtic_mandelbrot p max_iter
  | .SineMandelbrot => sine_mandelbrot ops p max_iter
  | .CosineMandelbrot => cosine_mandelbrot ops p max_iter
  | .ExponentialMandelbrot => exponential_mandelbrot ops p max_iter

/-! ## Pixel grids

`ndarray::Array2<u32>` with shape `(y_res, x_res)` is modelled as a function
`Fin y_res → Fin x_res → ℕ` (row index first, as in `pixels[[y, x]]`). -/

/-- A pixel grid of `h` rows and `w` columns of unsigned counters. -/
abbrev Grid (h w : ℕ) : Type :=
  Fin h → Fin w → ℕ

/-- The zero-initialized grid (`Array2::zeros`). -/
def Grid.zero (h w : ℕ) : Grid h w :=
  fun _ _ => 0

/-- Embeds `pixels[[y, x]] += 1`, a no-op out of bounds (the callers only pass
in-bounds indices, which the inverse mapper's guard guarantees). -/
def Grid.bump {h w : ℕ} (g : Grid h w) (y x : ℕ) : Grid h w :=
  fun j i => if (j : ℕ) = y ∧ (i : ℕ) = x then g j i + 1 else g j i

/-- Element-wise sum of two grids (`a + b` on `Array2<u32>` in the reduction
of `render.rs::render_attractor`). -/
def Grid.add {h w : ℕ} (a b : Grid h w) : Grid h w :=
  fun j i => a j i + b j i

/-- Total of all counters of a grid. -/
def Grid.total {h w : ℕ} (g : Grid h w) : ℕ :=
  ∑ j : Fin h, ∑ i : Fin w, g j i

/-- The constant `2^32`, the modulus of the `u32` arithmetic of the renderers. -/
def u32Mod : ℕ :=
  4294967296

/-! ## Escape-time grid renderers (src/src/sample.rs, src/src/render.rs) -/

/-- Embeds `sample.rs::sample_area`: one sample per pixel, taken at the pixel corner
offset `(x, y)` (no `+ 0.5`): `coord = centre + (idx - half_res) * step`. -/
def sample_area {T : Type} [LinearOrderedField T] (ops : FloatOps T) (centre : Complex T)
    (max_iter : ℕ) (scale : T) (x_res y_res : ℕ) (fractal : Fractal T) : Grid y_res x_res :=
  let x_res_t : T := x_res
  let y_res_t : T := y_res
  let aspect_ratio := x_res_t / y_res_t
  let width := scale * aspect_ratio
  let height := scale
  let half_x_res := x_res_t / 2
  let half_y_res := y_res_t / 2
  let x_step := width / x_res_t
  let y_step := height / y_res_t
  fun y x =>
    let y_t : T := ((y : ℕ) : T)
    let y_offset := (y_t - half_y_res) * y_step
    let y_coord := centre.imag + y_offset
    let x_t : T := ((x : ℕ) : T)
    let x_coord := centre.real + (x_t - half_x_res) * x_step
    Fractal.sample ops fractal (Complex.new x_coord y_coord) max_iter

/-- The pixel-center x coordinate computed by `render.rs::render_fractal` and
`sample.rs::multisample_area`: `centre.real + (x + 0.5 - half_x_res) * x_step`. -/
def pixel_center_x {T : Type} [LinearOrderedField T] (centre : Complex T) (scale : T)
    (x_res y_res : ℕ) (x : ℕ) : T :=
  let x_res_t : T := x_res
  let y_res_t : T := y_res
  let aspect_ratio := x_res_t / y_res_t
  let width := scale * aspect_ratio
  let x_step := width / x_res_t
  let half_x_res := x_res_t / 2
  centre.real + ((x : T) + 1 / 2 - half_x_res) * x_step

/-- The pixel-center y coordinate computed by `render.rs::render_fractal` and
`sample.rs::multisample_area`: `centre.imag + (y + 0.5 - half_y_res) * y_step`. -/
def pixel_center_y {T : Type} [LinearOrderedField T] (centre : Complex T) (scale : T)
    (x_res y_res : ℕ) (y : ℕ) : T :=
  let y_res_t : T := y_res
  let height := scale
  let y_step := height / y_res_t
  let half_y_res := y_res_t / 2
  centre.imag + ((y : T) + 1 / 2 - half_y_res) * y_step

/-- The sub-pixel offset of `sample.rs::multisample_area` on one axis:
`((i + 0.5) / samples - 0.5) * step`, where `step` is the pixel extent. -/
def subpixel_offset {T : Type} [LinearOrderedField T] (samples : ℕ) (step : T) (i : ℕ) : T :=
  (((i : T) + 1 / 2) / (samples : T) - 1 / 2) * step

/-- The x-axis pixel extent of the renderers: `(scale * (x_res / y_res)) / x_res`. -/
def x_step_of {T : Type} [LinearOrderedField T] (scale : T) (x_res y_res : ℕ) : T :=
  scale * ((x_res : T) / (y_res : T)) / (x_res : T)

/-- The y-axis pixel extent of the renderers: `scale / y_res`. -/
def y_step_of {T : Type} [LinearOrderedField T] (scale : T) (y_res : ℕ) : T :=
  scale / (y_res : T)

/-- The iteration count sampled at sub-pixel `(i, j)` of pixel `(x, y)` by
`sample.rs::multisample_area`. -/
def subpixel_count {T : Type} [LinearOrderedField T] (ops : FloatOps T) (centre : Complex T)
    (max_iter : ℕ) (scale : T) (x_res y_res : ℕ) (fractal : Fractal T) (samples : ℕ)
    (y x i j : ℕ) : ℕ :=
  Fractal.sample ops fractal
    (Complex.new
      (pixel_center_x centre scale x_res y_res x +
        subpixel_offset samples (x_step_of scale x_res y_res) i)
      (pixel_center_y centre scale x_res y_res y +
        subpixel_offset samples (y_step_of scale y_res) j))
    max_iter

/-- Embeds `sample.rs::multisample_area`: for each pixel, accumulate the counts of a
`samples × samples` sub-grid into a `u32` sum (modelled modulo `2^32`, the
wrapping semantics of `sum += ...`), then divide by `samples * samples`
(itself a `u32` product, also reduced modulo `2^32`). -/
def multisample_area {T : Type} [LinearOrderedField T] (ops : FloatOps T) (centre : Complex T)
    (max_iter : ℕ) (scale : T) (x_res y_res : ℕ) (fractal : Fractal T) (samples : ℕ) :
    Grid y_res x_res :=
  fun y x =>
    let sum :=
      (List.range samples).foldl
        (fun acc i =>
          (List.range samples).foldl
            (fun acc2 j =>
              (acc2 + subpixel_count ops centre max_iter scale x_res y_res fractal samples
                  (y : ℕ) (x : ℕ) i j) % u32Mod)
            acc)
        0
    let total_samples := samples * samples % u32Mod
    sum / total_samples

/-- Embeds `render.rs::render_fractal`: its per-pixel body is the same computation as
`sample.rs::multisample_area` (only a progress bar is added around the row
loop), so it is embedded as that function. -/
def render_fractal {T : Type} [LinearOrderedField T] (ops : FloatOps T) (centre : Complex T)
    (max_iter : ℕ) (scale : T) (x_res y_res : ℕ) (fractal : Fractal T)
    (samples_per_pixel : ℕ) : Grid y_res x_res :=
  multisample_area ops centre max_iter scale x_res y_res fractal samples_per_pixel

/-- Modelled from the spec sentence "if `supersample_factor == 1`, map the
pixel center once and call `sample`": one sample per pixel, taken at the pixel
center.  Used to state what `multisample_area` with factor 1 actually equals. -/
def single_sample_center_area {T : Type} [LinearOrderedField T] (ops : FloatOps T)
    (centre : Complex T) (max_iter : ℕ) (scale : T) (x_res y_res : ℕ) (fractal : Fractal T) :
    Grid y_res x_res :=
  fun y x =>
    Fractal.sample ops fractal
      (Complex.new (pixel_center_x centre scale x_res y_res (x : ℕ))
        (pixel_center_y centre scale x_res y_res (y : ℕ)))
      max_iter

/-! ## Inverse coordinate mapper (src/src/render.rs) -/

/-- The real-valued x pixel coordinate computed inside
`render.rs::create_position_to_pixel_mapper`:
`((shifted_real + half_width) / width) * (x_res - 1)`. -/
def pixel_coord_x {T : Type} [LinearOrderedField T] (offset : Complex T) (scale : T)
    (x_res y_res : ℕ) (p : Complex T) : T :=
  let x_res_t : T := x_res
  let y_res_t : T := y_res
  let aspect_ratio := x_res_t / y_res_t
  let width := scale * aspect_ratio
  let half_width := width / 2
  let max_x := x_res_t - 1
  let shifted_real := p.real - offset.real
  ((shifted_real + half_width) / width) * max_x

/-- The real-valued y pixel coordinate computed inside
`render.rs::create_position_to_pixel_mapper`:
`((half_height - shifted_imag) / height) * (y_res - 1)` (the y axis is flipped). -/
def pixel_coord_y {T : Type} [LinearOrderedField T] (offset : Complex T) (scale : T)
    (y_res : ℕ) (p : Complex T) : T :=
  let y_res_t : T := y_res
  let height := scale
  let half_height := height / 2
  let max_y := y_res_t - 1
  let shifted_imag := p.imag - offset.imag
  ((half_height - shifted_imag) / height) * max_y

/-- Embeds `render.rs::create_position_to_pixel_mapper`: accept iff both coordinates
lie in `[0, res)`, returning the truncated pair `[x, y]`; otherwise `None`
(`to_usize` truncates, which is the floor for the guaranteed-nonnegative
accepted values). -/
def position_to_pixel {T : Type} [LinearOrderedField T] [FloorRing T] (offset : Complex T)
    (scale : T) (x_res y_res : ℕ) (p : Complex T) : Option (ℕ × ℕ) :=
  let x := pixel_coord_x offset scale x_res y_res p
  let y := pixel_coord_y offset scale y_res p
  if 0 ≤ x ∧ x < (x_res : T) ∧ 0 ≤ y ∧ y < (y_res : T) then
    some ((⌊x⌋).toNat, (⌊y⌋).toNat)
  else
    none

/-! ## Attractor histogram renderer (src/src/attractor.rs, src/src/render.rs) -/

/-- The `enum Attractor<T>` of src/src/attractor.rs. -/
inductive Attractor (T : Type) where
  | Clifford (a b c d : T)
  | DeJong (a b c d : T)
  | Henon (a b : T)
  | Ikeda (u : T)
  | Tinkerbell (a b c d : T)
deriving DecidableEq

/-- Embeds `Attractor::iterate` of src/src/attractor.rs: one deterministic step of the
selected chaotic map, no termination test. -/
def Attractor.iterate {T : Type} [LinearOrderedField T] (ops : FloatOps T) :
    Attractor T → Complex T → Complex T
  | .Clifford a b c d, p =>
    Complex.new (ops.sin (a * p.imag) + c * ops.cos (a * p.real))
      (ops.sin (b * p.real) + d * ops.cos (b * p.imag))
  | .DeJong a b c d, p =>
    Complex.new (ops.sin (a * p.imag) - ops.cos (b * p.real))
      (ops.sin (c * p.real) - ops.cos (d * p.imag))
  | .Henon a b, p =>
    Complex.new (1 - a * p.real * p.real + p.imag) (b * p.real)
  | .Ikeda u, p =>
    let r_sq := p.real * p.real + p.imag * p.imag
    let t := 2 / 5 - 6 / (1 + r_sq)
    let cos_t := ops.cos t
    let sin_t := ops.sin t
    Complex.new (1 + u * (p.real * cos_t - p.imag * sin_t))
      (u * (p.real * sin_t + p.imag * cos_t))
  | .Tinkerbell a b c d, p =>
    Complex.new (p.real * p.real - p.imag * p.imag + a * p.real + b * p.imag)
      (2 * p.real * p.imag + c * p.real + d * p.imag)

/-- One iteration of the loop body of `render.rs::render_attractor_path`:
advance the position, and record a hit (from step index `draw_after` on)
at the pixel the inverse mapper accepts, if any. -/
def attractor_step {T : Type} [LinearOrderedField T] [FloorRing T] (ops : FloatOps T)
    (attractor : Attractor T) (centre : Complex T) (scale : T) (x_res y_res : ℕ)
    (draw_after : ℕ) (st : Complex T × Grid y_res x_res) (n : ℕ) :
    Complex T × Grid y_res x_res :=
  let pos := Attractor.iterate ops attractor st.1
  if n < draw_after then (pos, st.2)
  else
    match position_to_pixel centre scale x_res y_res pos with
    | some (x, y) => (pos, st.2.bump y x)
    | none => (pos, st.2)

/-- Embeds `render.rs::render_attractor_path`: run exactly `max_iter` steps of the
attractor map from `start`, accumulating hits in a private zero-initialized
grid; steps with index `< draw_after` only advance the state. -/
def render_attractor_path {T : Type} [LinearOrderedField T] [FloorRing T] (ops : FloatOps T)
    (start centre : Complex T) (max_iter draw_after : ℕ) (scale : T) (x_res y_res : ℕ)
    (attractor : Attractor T) : Grid y_res x_res :=
  ((List.range max_iter).foldl
    (attractor_step ops attractor centre scale x_res y_res draw_after)
    (start, Grid.zero y_res x_res)).2

/-- Element-wise sum of a list of grids, the reduction
`.reduce(|| Array2::zeros(shape), |a, b| a + b)` of `render.rs::render_attractor`
in one fixed order. -/
def sumGrids {h w : ℕ} (l : List (Grid h w)) : Grid h w :=
  l.foldr Grid.add (Grid.zero h w)

/-- The deterministic part of `render.rs::render_attractor` (lines 185-194):
map each sampled initial position to its per-trajectory grid and reduce by
element-wise addition.  The randomly generated list of initial positions is a
parameter (its generation is `generate_initial_positions`). -/
def render_attractor_sum {T : Type} [LinearOrderedField T] [FloorRing T] (ops : FloatOps T)
    (centre : Complex T) (max_iter draw_after : ℕ) (scale : T) (x_res y_res : ℕ)
    (attractor : Attractor T) (initial_positions : List (Complex T)) : Grid y_res x_res :=
  sumGrids
    (initial_positions.map fun pos =>
      render_attractor_path ops pos centre max_iter draw_after scale x_res y_res attractor)

/-! ## Random initial positions (src/src/render.rs::generate_initial_positions)

Modelled over `ℝ`.  `rand`'s `Rng::random_range(lo..hi)` returns a value
uniform in `[lo, hi)` and panics when the range is empty (`!(lo < hi)`); it is
modelled as `lo + u * (hi - lo)` for an underlying uniform draw `u ∈ [0, 1)`,
with the panic as `none`. -/

/-- Model of `rand::Rng::random_range(lo..hi)` at underlying draw `u ∈ [0, 1)`:
`none` models the panic on an empty range. -/
noncomputable def randomRange (lo hi u : ℝ) : Option ℝ :=
  if lo < hi then some (lo + u * (hi - lo)) else none

/-- The `for _ in 0..num_samples` loop of
`render.rs::generate_initial_positions`: at loop index `k` with `n` iterations
left, draw `theta = random_range(0..TAU)` and `v = random_range(0..radius)`,
push the point `start + sqrt(v) * (cos theta, sin theta)`, and continue; a
panicking draw (`none`) aborts the whole run. -/
noncomputable def generate_loop (start : Complex ℝ) (radius : ℝ) (draws : ℕ → ℝ × ℝ) :
    ℕ → ℕ → Option (List (Complex ℝ))
  | _, 0 => some []
  | k, n + 1 =>
    match randomRange 0 (2 * Real.pi) (draws k).1, randomRange 0 radius (draws k).2 with
    | some theta, some v =>
      let rho := Real.sqrt v
      Option.map
        (fun rest =>
          Complex.new (start.real + rho * Real.cos theta) (start.imag + rho * Real.sin theta)
            :: rest)
        (generate_loop start radius draws (k + 1) n)
    | _, _ => none

/-- Embeds `render.rs::generate_initial_positions`: `num_samples` points, each
`start + sqrt(random_range(0..radius)) * (cos theta, sin theta)` with
`theta = random_range(0..TAU)`.  `draws k` supplies the two underlying uniform
draws of iteration `k`; `none` models a panic. -/
noncomputable def generate_initial_positions (start : Complex ℝ) (radius : ℝ)
    (num_samples : ℕ) (draws : ℕ → ℝ × ℝ) : Option (List (Complex ℝ)) :=
  generate_loop start radius draws 0 num_samples

/-! ## Specification-side sequences and sums -/

/-- The Newton iterate sequence of `fractal.rs::newton`: `z_0 = c` and
`z_{n+1} = z_n - newton_step z_n`. -/
def newton_z {T : Type} [LinearOrderedField T] (c : Complex T) : ℕ → Complex T
  | 0 => c
  | n + 1 => newton_z c n - newton_step (newton_z c n)

/-- The Newton update at step `n` (counting from 0): `dz_n = newton_step z_n`. -/
def newton_dz {T : Type} [LinearOrderedField T] (c : Complex T) (n : ℕ) : Complex T :=
  newton_step (newton_z c n)

/-- The exact (unwrapped) sum of the `samples × samples` iteration counts of
one pixel of `sample.rs::multisample_area`. -/
def subpixel_sum {T : Type} [LinearOrderedField T] (ops : FloatOps T) (centre : Complex T)
    (max_iter : ℕ) (scale : T) (x_res y_res : ℕ) (fractal : Fractal T) (samples : ℕ)
    (y x : ℕ) : ℕ :=
  ∑ i ∈ Finset.range samples, ∑ j ∈ Finset.range samples,
    subpixel_count ops centre max_iter scale x_res y_res fractal samples y x i j

/-- A concrete instantiation of the transcendental operations over `ℚ`, used
only to evaluate the embedding at concrete inputs (the polynomial fractal and
attractor kinds never consult it). -/
def constOps : FloatOps ℚ :=
  ⟨fun _ => 0, fun _ => 0, fun _ => 0, fun _ => 0, fun _ => 0⟩

/-! ## Loop bounds -/

/-- The escape-time loop performs at most `fuel` additional iterations. -/
theorem escapeLoop_le {T σ : Type} [LinearOrderedField T] (nsq : σ → T) (step : σ → σ) :
    ∀ (fuel : ℕ) (s : σ) (n : ℕ), escapeLoop nsq step fuel s n ≤ n + fuel := by
  intro fuel
  induction fuel with
  | zero => intro s n; simp [escapeLoop]
  | succ k ih =>
    intro s n
    simp only [escapeLoop]
    split
    · exact le_trans (ih _ _) (by omega)
    · omega

/-- The Newton loop performs at most `fuel` additional iterations. -/
theorem newtonLoop_le {T : Type} [LinearOrderedField T] (epsilon : T) :
    ∀ (fuel : ℕ) (z : Complex T) (n : ℕ), newtonLoop epsilon fuel z n ≤ n + fuel := by
  intro fuel
  induction fuel with
  | zero => intro z n; simp [newtonLoop]
  | succ k ih =>
    intro z n
    simp only [newtonLoop]
    split
    · omega
    · exact le_trans (ih _ _) (by omega)

/-- Every fractal kind's sample is bounded by `max_iter`. -/
theorem Fractal.sample_le {T : Type} [LinearOrderedField T] (ops : FloatOps T) (f : Fractal T)
    (p : Complex T) (max_iter : ℕ) : Fractal.sample ops f p max_iter ≤ max_iter := by
  cases f <;>
    first
      | simpa [Fractal.sample, mandelbrot, burning_ship, julia, tricorn, multibrot, phoenix,
          clifford, de_jong, tinkerbell, celtic_mandelbrot, sine_mandelbrot, cosine_mandelbrot,
          exponential_mandelbrot] using escapeLoop_le _ _ max_iter _ 0
      | simpa [Fractal.sample, newton] using newtonLoop_le _ max_iter _ 0

/-- C9: For every fractal kind (including Newton), every probe point, and every
max_iter, `sample(point, max_iter)` returns an iteration count in the range
`[0, max_iter]`. -/
theorem sample_count_in_range {T : Type} [LinearOrderedField T] (ops : FloatOps T)
    (f : Fractal T) (p : Complex T) (max_iter : ℕ) :
    0 ≤ Fractal.sample ops f p max_iter ∧ Fractal.sample ops f p max_iter ≤ max_iter :=
  ⟨Nat.zero_le _, Fractal.sample_le ops f p max_iter⟩

/-! ## Newton termination rule (C5) -/

/-- Characterization of the Newton while loop along the iterate sequence:
started at `z_n` with counter `n` and `fuel` iterations allowed, it returns the
first index at which the update is small, or `n + fuel`. -/
theorem newtonLoop_spec {T : Type} [LinearOrderedField T] (c : Complex T) (epsilon : T)
    (fuel n : ℕ) :
    n ≤ newtonLoop epsilon fuel (newton_z c n) n ∧
    newtonLoop epsilon fuel (newton_z c n) n ≤ n + fuel ∧
    (∀ k, n ≤ k → k < newtonLoop epsilon fuel (newton_z c n) n →
      ¬ (newton_dz c k).norm_sqr < epsilon) ∧
    (newtonLoop epsilon fuel (newton_z c n) n < n + fuel →
      (newton_dz c (newtonLoop epsilon fuel (newton_z c n) n)).norm_sqr < epsilon) := by
  induction fuel generalizing n with
  | zero =>
    simp only [newtonLoop]
    exact ⟨le_refl _, by omega, fun k hk hlt => absurd hlt (by omega),
      fun h => absurd h (by omega)⟩
  | succ fuel ih =>
    have hz : newton_z c n - newton_step (newton_z c n) = newton_z c (n + 1) := rfl
    simp only [newtonLoop]
    by_cases hP : (newton_step (newton_z c n)).norm_sqr < epsilon
    · simp only [if_pos hP]
      exact ⟨le_refl _, by omega, fun k hk hlt => absurd hlt (by omega), fun _ => hP⟩
    · simp only [if_neg hP, hz]
      obtain ⟨h1, h2, h3, h4⟩ := ih (n + 1)
      refine ⟨by omega, by omega, ?_, fun h => h4 (by omega)⟩
      intro k hk hlt
      rcases eq_or_lt_of_le hk with heq | hlt'
      · rw [← heq]
        simpa [newton_dz] using hP
      · exact h3 k hlt' hlt

/-- C5: For every probe point `c`, `epsilon`, and `max_iter`, the Newton
kind's sample returns the smallest step index `n` (counting from 0) such that
the squared norm of the Newton update `dz` at step `n` is `< epsilon`, or
`max_iter` if no step before `max_iter` satisfies that condition. -/
theorem newton_returns_first_small_step {T : Type} [LinearOrderedField T] (c : Complex T)
    (epsilon : T) (max_iter : ℕ) :
    newton c epsilon max_iter =
      if h : ∃ n, n < max_iter ∧ (newton_dz c n).norm_sqr < epsilon then Nat.find h
      else max_iter := by
  have hdef : newton c epsilon max_iter = newtonLoop epsilon max_iter (newton_z c 0) 0 := rfl
  obtain ⟨h1, h2, h3, h4⟩ := newtonLoop_spec c epsilon max_iter 0
  rw [hdef]
  split
  case isTrue h =>
    obtain ⟨hN1, hN2⟩ := Nat.find_spec h
    have hge : Nat.find h ≥ newtonLoop epsilon max_iter (newton_z c 0) 0 := by
      by_contra hc
      exact h3 (Nat.find h) (Nat.zero_le _) (by omega) hN2
    have hlt : newtonLoop epsilon max_iter (newton_z c 0) 0 < max_iter := by omega
    have hP := h4 (by omega)
    have hle : Nat.find h ≤ newtonLoop epsilon max_iter (newton_z c 0) 0 :=
      Nat.find_le ⟨hlt, hP⟩
    omega
  case isFalse h =>
    by_contra hc
    have hlt : newtonLoop epsilon max_iter (newton_z c 0) 0 < max_iter := by omega
    exact h ⟨newtonLoop epsilon max_iter (newton_z c 0) 0, hlt, h4 (by omega)⟩

/-! ## Unfolding helpers for the complex arithmetic instances -/

/-- Unfolds complex addition. -/
theorem Complex.add_def {T : Type} [Add T] (a b : Complex T) :
    a + b = Complex.new (a.real + b.real) (a.imag + b.imag) :=
  rfl

/-- Unfolds complex subtraction. -/
theorem Complex.sub_def {T : Type} [Sub T] (a b : Complex T) :
    a - b = Complex.new (a.real - b.real) (a.imag - b.imag) :=
  rfl

/-- Unfolds complex multiplication. -/
theorem Complex.mul_def {T : Type} [Add T] [Sub T] [Mul T] (a b : Complex T) :
    a * b = Complex.new (a.real * b.real - a.imag * b.imag)
      (a.real * b.imag + a.imag * b.real) :=
  rfl

/-- Unfolds complex division. -/
theorem Complex.div_def {T : Type} [Add T] [Sub T] [Mul T] [Div T] (a b : Complex T) :
    a / b = Complex.new
      ((a.real * b.real + a.imag * b.imag) / (b.real * b.real + b.imag * b.imag))
      ((a.imag * b.real - a.real * b.imag) / (b.real * b.real + b.imag * b.imag)) :=
  rfl

/-! ## Supersampling with factor one (C1) -/

/-- The sub-pixel offset degenerates to zero when there is one sample per axis. -/
theorem subpixel_offset_one {T : Type} [LinearOrderedField T] (step : T) :
    subpixel_offset 1 step 0 = 0 := by
  simp [subpixel_offset]

/-- What `multisample_area` with supersample factor 1 actually computes: one
sample per pixel at the pixel center (as the spec's `k = 1` sentence says). -/
theorem multisample_one_eq_center {T : Type} [LinearOrderedField T] (ops : FloatOps T)
    (centre : Complex T) (max_iter : ℕ) (scale : T) (x_res y_res : ℕ) (fractal : Fractal T)
    (hm : max_iter < u32Mod) :
    multisample_area ops centre max_iter scale x_res y_res fractal 1 =
      single_sample_center_area ops centre max_iter scale x_res y_res fractal := by
  funext y x
  have hs : Fractal.sample ops fractal
      (Complex.new (pixel_center_x centre scale x_res y_res (x : ℕ))
        (pixel_center_y centre scale x_res y_res (y : ℕ))) max_iter ≤ max_iter :=
    Fractal.sample_le _ _ _ _
  simp only [multisample_area, single_sample_center_area, List.range_succ, List.range_zero,
    List.nil_append, List.foldl_cons, List.foldl_nil, subpixel_count, subpixel_offset_one,
    add_zero, Nat.zero_add, one_mul]
  rw [Nat.mod_eq_of_lt (lt_of_le_of_lt hs hm), Nat.mod_eq_of_lt (by norm_num [u32Mod]),
    Nat.div_one]

/-- Witness for `multisample_one_eq_center` at a concrete configuration. -/
theorem multisample_one_eq_center_witness :
    multisample_area constOps (Complex.new (0 : ℚ) 0) 3 4 2 2 Fractal.Mandelbrot 1 =
      single_sample_center_area constOps (Complex.new (0 : ℚ) 0) 3 4 2 2 Fractal.Mandelbrot :=
  multisample_one_eq_center constOps (Complex.new (0 : ℚ) 0) 3 4 2 2 Fractal.Mandelbrot
    (by norm_num [u32Mod])

/-- C1 as stated is false: `multisample_area` with factor 1 samples the pixel
center `(x + 0.5, y + 0.5)` while `sample_area` samples the corner `(x, y)`,
so at centre 0, scale 4, resolution 1×1, max_iter 5 the Mandelbrot grids are
`[[5]]` and `[[1]]` respectively. -/
theorem multisample_one_ne_sample_area :
    multisample_area constOps (Complex.new (0 : ℚ) 0) 5 4 1 1 Fractal.Mandelbrot 1 ≠
      sample_area constOps (Complex.new (0 : ℚ) 0) 5 4 1 1 Fractal.Mandelbrot := by
  intro h
  have h00 := congrFun (congrFun h 0) 0
  norm_num [multisample_area, sample_area, subpixel_count, subpixel_offset, pixel_center_x,
    pixel_center_y, x_step_of, y_step_of, Fractal.sample, mandelbrot, escapeLoop,
    Complex.norm_sqr, Complex.add_def, Complex.mul_def, Complex.new, u32Mod,
    List.range_succ] at h00

/-! ## Inverse mapper acceptance (C8) -/

/-- The inverse coordinate mapper returns `none` exactly when a computed pixel
coordinate is outside `[0, res)` on either axis; a computed x coordinate of
`x_res - 1` (other axis in range) is accepted, and one of `x_res` is rejected. -/
theorem position_to_pixel_none_iff {T : Type} [LinearOrderedField T] [FloorRing T]
    (offset : Complex T) (scale : T) (x_res y_res : ℕ) (p : Complex T) :
    (position_to_pixel offset scale x_res y_res p = none ↔
      ¬ (0 ≤ pixel_coord_x offset scale x_res y_res p ∧
          pixel_coord_x offset scale x_res y_res p < (x_res : T) ∧
          0 ≤ pixel_coord_y offset scale y_res p ∧
          pixel_coord_y offset scale y_res p < (y_res : T))) ∧
    (pixel_coord_x offset scale x_res y_res p = (x_res : T) - 1 → 1 ≤ x_res →
      0 ≤ pixel_coord_y offset scale y_res p →
      pixel_coord_y offset scale y_res p < (y_res : T) →
      position_to_pixel offset scale x_res y_res p ≠ none) ∧
    (pixel_coord_x offset scale x_res y_res p = (x_res : T) →
      position_to_pixel offset scale x_res y_res p = none) := by
  refine ⟨?_, ?_, ?_⟩
  · simp only [position_to_pixel]
    split
    case isTrue h => simp [h]
    case isFalse h => simp [h]
  · intro hx hxr hy0 hyr
    have h1 : (1 : T) ≤ (x_res : T) := by exact_mod_cast hxr
    have hcond : 0 ≤ pixel_coord_x offset scale x_res y_res p ∧
        pixel_coord_x offset scale x_res y_res p < (x_res : T) ∧
        0 ≤ pixel_coord_y offset scale y_res p ∧
        pixel_coord_y offset scale y_res p < (y_res : T) :=
      ⟨by rw [hx]; linarith, by rw [hx]; linarith, hy0, hyr⟩
    simp [position_to_pixel, hcond]
  · intro hx
    simp [position_to_pixel, hx]

/-- Witness for `position_to_pixel_none_iff`: with offset 0, scale 4 and
resolution 4×4, the point `(2, 0)` has computed x coordinate exactly
`x_res - 1 = 3` and is accepted. -/
theorem position_to_pixel_boundary_witness :
    position_to_pixel (Complex.new (0 : ℚ) 0) 4 4 4 (Complex.new 2 0) ≠ none :=
  (position_to_pixel_none_iff (Complex.new (0 : ℚ) 0) 4 4 4 (Complex.new 2 0)).2.1
    (by norm_num [pixel_coord_x, Complex.new]) (by norm_num)
    (by norm_num [pixel_coord_y, Complex.new]) (by norm_num [pixel_coord_y, Complex.new])

/-! ## Coordinate-mapper round trip (C2) -/

/-- The computed inverse x coordinate of a forward-mapped pixel center:
the scale and centre cancel, leaving `(x + 1/2) * ((x_res - 1) / x_res)`. -/
theorem pixel_coord_x_center {T : Type} [LinearOrderedField T] (centre : Complex T)
    (scale : T) (x_res y_res x : ℕ) (v : T) (hxr : (x_res : T) ≠ 0) (hyr : (y_res : T) ≠ 0)
    (hs : scale ≠ 0) :
    pixel_coord_x centre scale x_res y_res
        (Complex.new (pixel_center_x centre scale x_res y_res x) v) =
      ((x : T) + 1 / 2) * (((x_res : T) - 1) / (x_res : T)) := by
  simp only [pixel_coord_x, pixel_center_x, Complex.new]
  field_simp
  ring

/-- The computed inverse y coordinate of a forward-mapped pixel center:
`(y_res - y - 1/2) * ((y_res - 1) / y_res)` — the flipped row, because the
inverse mapper flips the y axis and the forward map does not. -/
theorem pixel_coord_y_center {T : Type} [LinearOrderedField T] (centre : Complex T)
    (scale : T) (x_res y_res y : ℕ) (u : T) (hyr : (y_res : T) ≠ 0) (hs : scale ≠ 0) :
    pixel_coord_y centre scale y_res
        (Complex.new u (pixel_center_y centre scale x_res y_res y)) =
      ((y_res : T) - (y : T) - 1 / 2) * (((y_res : T) - 1) / (y_res : T)) := by
  simp only [pixel_coord_y, pixel_center_y, Complex.new]
  field_simp
  ring

/-- Floor bounds for the common shape `(k + 1/2) * ((n - 1) / n)` of both
inverse coordinates of a forward-mapped pixel center: the value is
nonnegative and its floor is `k - 1` or `k`. -/
theorem center_coord_floor_bound {T : Type} [LinearOrderedField T] [FloorRing T]
    (n k : ℕ) (hk : k < n) :
    0 ≤ ((k : T) + 1 / 2) * (((n : T) - 1) / (n : T)) ∧
    (k : ℤ) - 1 ≤ ⌊((k : T) + 1 / 2) * (((n : T) - 1) / (n : T))⌋ ∧
    ⌊((k : T) + 1 / 2) * (((n : T) - 1) / (n : T))⌋ ≤ (k : ℤ) := by
  have hn1 : (1 : T) ≤ (n : T) := by exact_mod_cast Nat.one_le_iff_ne_zero.mpr (by omega)
  have hn0 : (0 : T) < (n : T) := lt_of_lt_of_le zero_lt_one hn1
  have hk0 : (0 : T) ≤ (k : T) := Nat.cast_nonneg k
  have hkn : (k : T) + 1 ≤ (n : T) := by exact_mod_cast Nat.succ_le_of_lt hk
  have hform : ((k : T) + 1 / 2) * (((n : T) - 1) / (n : T)) =
      ((k : T) + 1 / 2) * ((n : T) - 1) / (n : T) := by ring
  have h0 : 0 ≤ ((k : T) + 1 / 2) * (((n : T) - 1) / (n : T)) :=
    mul_nonneg (by linarith) (div_nonneg (by linarith) (le_of_lt hn0))
  have hub : ((k : T) + 1 / 2) * (((n : T) - 1) / (n : T)) < (k : T) + 1 := by
    rw [hform, div_lt_iff hn0]
    nlinarith
  have hlb : (k : T) - 1 < ((k : T) + 1 / 2) * (((n : T) - 1) / (n : T)) := by
    rw [hform, lt_div_iff hn0]
    nlinarith
  refine ⟨h0, ?_, ?_⟩
  · apply Int.le_floor.mpr
    push_cast
    linarith
  · have hlt : ⌊((k : T) + 1 / 2) * (((n : T) - 1) / (n : T))⌋ < (k : ℤ) + 1 := by
      apply Int.floor_lt.mpr
      push_cast
      linarith
    omega

/-- C2 amended: for a pixel `(x, y)` of a `x_res × y_res` frame (nonzero
scale), when the inverse mapper accepts the forward-mapped pixel-center
coordinate, the returned x index differs from `x` by at most 1, and the
returned y index differs from the **flipped** row `y_res - 1 - y` by at most 1
(the inverse mapper flips the y axis while the forward map does not, so the
returned y index is generally far from `y` itself). -/
theorem pixel_roundtrip_within_one {T : Type} [LinearOrderedField T] [FloorRing T]
    (centre : Complex T) (scale : T) (x_res y_res x y px py : ℕ)
    (hx : x < x_res) (hy : y < y_res) (hs : scale ≠ 0)
    (hmap : position_to_pixel centre scale x_res y_res
        (Complex.new (pixel_center_x centre scale x_res y_res x)
          (pixel_center_y centre scale x_res y_res y)) = some (px, py)) :
    ((px : ℤ) - (x : ℤ)).natAbs ≤ 1 ∧
    ((py : ℤ) - ((y_res : ℤ) - 1 - (y : ℤ))).natAbs ≤ 1 := by
  have hxr : (x_res : T) ≠ 0 := Nat.cast_ne_zero.mpr (by omega)
  have hyr : (y_res : T) ≠ 0 := Nat.cast_ne_zero.mpr (by omega)
  have hycast : ((y_res - 1 - y : ℕ) : T) = (y_res : T) - 1 - (y : T) := by
    rw [Nat.cast_sub (show y ≤ y_res - 1 by omega), Nat.cast_sub (show 1 ≤ y_res by omega),
      Nat.cast_one]
  have hqy : pixel_coord_y centre scale y_res
      (Complex.new (pixel_center_x centre scale x_res y_res x)
        (pixel_center_y centre scale x_res y_res y)) =
      (((y_res - 1 - y : ℕ) : T) + 1 / 2) * (((y_res : T) - 1) / (y_res : T)) := by
    rw [pixel_coord_y_center centre scale x_res y_res y _ hyr hs, hycast]
    ring
  have hqx := pixel_coord_x_center centre scale x_res y_res x
    (pixel_center_y centre scale x_res y_res y) hxr hyr hs
  obtain ⟨h0x, hlx, hux⟩ := center_coord_floor_bound (T := T) x_res x hx
  obtain ⟨h0y, hly, huy⟩ := center_coord_floor_bound (T := T) y_res (y_res - 1 - y) (by omega)
  simp only [position_to_pixel, hqx, hqy] at hmap
  split at hmap
  case isFalse h => exact absurd hmap (by simp)
  case isTrue h =>
    simp only [Option.some.injEq, Prod.mk.injEq] at hmap
    obtain ⟨hpx, hpy⟩ := hmap
    have hfx : (px : ℤ) = ⌊((x : T) + 1 / 2) * (((x_res : T) - 1) / (x_res : T))⌋ := by
      rw [← hpx]
      exact Int.toNat_of_nonneg (Int.floor_nonneg.mpr h0x)
    have hfy : (py : ℤ) =
        ⌊(((y_res - 1 - y : ℕ) : T) + 1 / 2) * (((y_res : T) - 1) / (y_res : T))⌋ := by
      rw [← hpy]
      exact Int.toNat_of_nonneg (Int.floor_nonneg.mpr h0y)
    have hyz : ((y_res - 1 - y : ℕ) : ℤ) = (y_res : ℤ) - 1 - (y : ℤ) := by
      omega
    constructor
    · omega
    · rw [hfy]
      omega

/-- C2 as stated is false: at centre 0, scale 1, resolution 10×10, the
forward-mapped center of pixel `(0, 0)` is sent by the inverse mapper to the
pixel `(0, 8)`, whose y index differs from `y = 0` by 8. -/
theorem inverse_of_forward_far_from_pixel :
    position_to_pixel (Complex.new (0 : ℚ) 0) 1 10 10
        (Complex.new (pixel_center_x (Complex.new (0 : ℚ) 0) 1 10 10 0)
          (pixel_center_y (Complex.new (0 : ℚ) 0) 1 10 10 0)) = some (0, 8) ∧
    1 < ((8 : ℤ) - (0 : ℤ)).natAbs := by
  constructor
  · norm_num [position_to_pixel, pixel_coord_x, pixel_coord_y, pixel_center_x, pixel_center_y,
      Complex.new]
    rfl
  · norm_num

/-- Witness for `pixel_roundtrip_within_one` at centre 0, scale 1,
resolution 10×10, pixel `(0, 0)`, mapped back to `(0, 8)`. -/
theorem pixel_roundtrip_within_one_witness :
    ((0 : ℤ) - (0 : ℤ)).natAbs ≤ 1 ∧ ((8 : ℤ) - ((10 : ℤ) - 1 - (0 : ℤ))).natAbs ≤ 1 :=
  pixel_roundtrip_within_one (Complex.new (0 : ℚ) 0) 1 10 10 0 0 0 8
    (by norm_num) (by norm_num) (by norm_num)
    (by
      norm_num [position_to_pixel, pixel_coord_x, pixel_coord_y, pixel_center_x,
        pixel_center_y, Complex.new]
      rfl)

/-! ## Random initial positions (C3, C4) -/

/-- C3 fails on the code: with `radius = 0`, the radial draw
`random_range(0.0..0.0)` has an empty range, which panics in `rand` (modelled
as `none`), for every start point and every outcome of the draws — generation
does not complete with all points equal to `start`. -/
theorem generate_radius_zero_panics (start : Complex ℝ) (draws : ℕ → ℝ × ℝ) :
    generate_initial_positions start 0 1 draws = none := by
  have h2 : randomRange 0 0 (draws 0).2 = none := by simp [randomRange]
  simp only [generate_initial_positions, generate_loop]
  cases hθ : randomRange 0 (2 * Real.pi) (draws 0).1 <;> simp [h2, hθ]

/-- C4 fails on the code: the radial coordinate is `sqrt` of a draw uniform in
`[0, radius)` — not `[0, radius²)` — so for `radius = 1/4` the draw `1/8`
(underlying uniform value `1/2`) at angle `0` produces the point
`start + (sqrt(1/8), 0)`, whose squared distance from `start` is
`1/8 > (1/4)² = radius²`: the point lies outside the disk. -/
theorem generate_point_outside_disk :
    generate_initial_positions (Complex.new 0 0) (1 / 4) 1 (fun _ => (0, 1 / 2)) =
      some [Complex.new (Real.sqrt (1 / 8)) 0] ∧
    (Complex.new (Real.sqrt (1 / 8)) 0 - Complex.new (0 : ℝ) 0).norm_sqr > (1 / 4) ^ 2 := by
  constructor
  · have hθ : randomRange 0 (2 * Real.pi) 0 = some 0 := by
      simp [randomRange, Real.pi_pos]
    have hv : randomRange 0 ((1 : ℝ) / 4) (1 / 2) = some (1 / 8) := by
      rw [randomRange, if_pos (by norm_num)]
      norm_num
    simp only [generate_initial_positions, generate_loop]
    rw [hθ, hv]
    simp [Real.cos_zero, Real.sin_zero, Complex.new]
  · rw [Complex.sub_def]
    simp only [Complex.norm_sqr, Complex.new, sub_zero, mul_zero, zero_mul, add_zero,
      zero_sub, neg_zero]
    rw [Real.mul_self_sqrt (by norm_num)]
    norm_num

/-! ## Grid algebra and reduction order (C7) -/

/-- Element-wise grid addition is commutative. -/
theorem Grid.add_comm {h w : ℕ} (a b : Grid h w) : Grid.add a b = Grid.add b a := by
  funext j i
  simp [Grid.add, Nat.add_comm]

/-- Element-wise grid addition is associative. -/
theorem Grid.add_assoc {h w : ℕ} (a b c : Grid h w) :
    Grid.add (Grid.add a b) c = Grid.add a (Grid.add b c) := by
  funext j i
  simp [Grid.add, Nat.add_assoc]

/-- The zero grid is the identity of grid addition. -/
theorem Grid.add_zero_left {h w : ℕ} (a : Grid h w) : Grid.add (Grid.zero h w) a = a := by
  funext j i
  simp [Grid.add, Grid.zero]

/-- The zero grid is the right identity of grid addition. -/
theorem Grid.add_zero_right {h w : ℕ} (a : Grid h w) : Grid.add a (Grid.zero h w) = a := by
  funext j i
  simp [Grid.add, Grid.zero]

/-- A cell of a grid sum is the sum of the cells. -/
theorem sumGrids_apply {h w : ℕ} (l : List (Grid h w)) (j : Fin h) (i : Fin w) :
    sumGrids l j i = (l.map fun g => g j i).sum := by
  induction l with
  | nil => simp [sumGrids, Grid.zero]
  | cons g l ih =>
    have hcons : sumGrids (g :: l) = Grid.add g (sumGrids l) := rfl
    rw [hcons]
    simp only [Grid.add, List.map_cons, List.sum_cons, ih]

/-- Summing a list of grids is invariant under permutation. -/
theorem sumGrids_perm {h w : ℕ} (l₁ l₂ : List (Grid h w)) (hp : l₁.Perm l₂) :
    sumGrids l₁ = sumGrids l₂ := by
  funext j i
  rw [sumGrids_apply, sumGrids_apply]
  exact List.Perm.sum_eq (hp.map _)

/-- C7: grid addition is commutative and associative with the zero grid as
identity, so the histogram reduction gives the same final grid for every
order of the per-trajectory grids; in particular `render_attractor`'s
reduction is invariant under permutation of the sampled initial positions. -/
theorem grid_reduction_order_independent {T : Type} [LinearOrderedField T] [FloorRing T]
    (ops : FloatOps T) (centre : Complex T) (max_iter draw_after : ℕ) (scale : T)
    (x_res y_res : ℕ) (attractor : Attractor T) :
    (∀ a b : Grid y_res x_res, Grid.add a b = Grid.add b a) ∧
    (∀ a b c : Grid y_res x_res, Grid.add (Grid.add a b) c = Grid.add a (Grid.add b c)) ∧
    (∀ a : Grid y_res x_res,
      Grid.add (Grid.zero y_res x_res) a = a ∧ Grid.add a (Grid.zero y_res x_res) = a) ∧
    (∀ l₁ l₂ : List (Grid y_res x_res), l₁.Perm l₂ → sumGrids l₁ = sumGrids l₂) ∧
    (∀ ps₁ ps₂ : List (Complex T), ps₁.Perm ps₂ →
      render_attractor_sum ops centre max_iter draw_after scale x_res y_res attractor ps₁ =
        render_attractor_sum ops centre max_iter draw_after scale x_res y_res attractor ps₂) := by
  refine ⟨Grid.add_comm, Grid.add_assoc, fun a => ⟨Grid.add_zero_left a, Grid.add_zero_right a⟩,
    sumGrids_perm, ?_⟩
  intro ps₁ ps₂ hp
  unfold render_attractor_sum
  exact sumGrids_perm _ _ (hp.map _)

/-- Witness for `grid_reduction_order_independent`: swapping two concrete
initial positions leaves the reduced grid unchanged. -/
theorem grid_reduction_order_independent_witness :
    render_attractor_sum constOps (Complex.new (0 : ℚ) 0) 2 0 4 1 1 (Attractor.Henon 1 1)
        [Complex.new 0 0, Complex.new (1 / 2) 0] =
      render_attractor_sum constOps (Complex.new (0 : ℚ) 0) 2 0 4 1 1 (Attractor.Henon 1 1)
        [Complex.new (1 / 2) 0, Complex.new 0 0] :=
  (grid_reduction_order_independent constOps (Complex.new (0 : ℚ) 0) 2 0 4 1 1
      (Attractor.Henon 1 1)).2.2.2.2 _ _ (List.Perm.swap _ _ _)

/-! ## Hit-count bounds of the histogram renderer (C6) -/

/-- At most one cell of a grid matches a fixed index, so the indicator sum is
at most one. -/
theorem indicator_sum_le (n k : ℕ) :
    (∑ i : Fin n, if (i : ℕ) = k then 1 else 0) ≤ 1 := by
  by_cases hk : k < n
  · have hcongr : ∀ i : Fin n, (if (i : ℕ) = k then (1 : ℕ) else 0) =
        if i = ⟨k, hk⟩ then 1 else 0 := by
      intro i
      simp [Fin.ext_iff]
    rw [Finset.sum_congr rfl fun i _ => hcongr i, Finset.sum_ite_eq']
    simp
  · have hcongr : ∀ i : Fin n, (if (i : ℕ) = k then (1 : ℕ) else 0) = 0 := by
      intro i
      have : (i : ℕ) ≠ k := by omega
      simp [this]
    simp [hcongr]

/-- Incrementing one cell raises the grid total by at most one. -/
theorem Grid.total_bump_le {h w : ℕ} (g : Grid h w) (y x : ℕ) :
    (g.bump y x).total ≤ g.total + 1 := by
  have key : ∀ j : Fin h,
      (∑ i : Fin w, g.bump y x j i) ≤
        (∑ i : Fin w, g j i) + (if (j : ℕ) = y then 1 else 0) := by
    intro j
    by_cases h1 : (j : ℕ) = y
    · have hrow : ∀ i : Fin w, g.bump y x j i = g j i + (if (i : ℕ) = x then 1 else 0) := by
        intro i
        by_cases h2 : (i : ℕ) = x <;> simp [Grid.bump, h1, h2]
      rw [Finset.sum_congr rfl fun i _ => hrow i, Finset.sum_add_distrib, if_pos h1]
      exact Nat.add_le_add_left (indicator_sum_le w x) _
    · have hrow : ∀ i : Fin w, g.bump y x j i = g j i := by
        intro i
        simp [Grid.bump, h1]
      rw [Finset.sum_congr rfl fun i _ => hrow i, if_neg h1]
      exact Nat.le_add_right _ 0
  calc (g.bump y x).total
      ≤ ∑ j : Fin h, ((∑ i : Fin w, g j i) + if (j : ℕ) = y then 1 else 0) :=
        Finset.sum_le_sum fun j _ => key j
    _ = g.total + ∑ j : Fin h, (if (j : ℕ) = y then 1 else 0) := Finset.sum_add_distrib
    _ ≤ g.total + 1 := Nat.add_le_add_left (indicator_sum_le h y) _

/-- One loop iteration of the trajectory renderer raises the grid total by at
most one, and only from step index `draw_after` on. -/
theorem attractor_step_total_le {T : Type} [LinearOrderedField T] [FloorRing T]
    (ops : FloatOps T) (attractor : Attractor T) (centre : Complex T) (scale : T)
    (x_res y_res draw_after : ℕ) (st : Complex T × Grid y_res x_res) (n : ℕ) :
    ((attractor_step ops attractor centre scale x_res y_res draw_after st n).2).total ≤
      st.2.total + (if draw_after ≤ n then 1 else 0) := by
  unfold attractor_step
  split
  case isTrue hlt =>
    simp [Nat.not_le.mpr hlt]
  case isFalse hge =>
    rw [if_pos (Nat.le_of_not_lt hge)]
    cases hpix : position_to_pixel centre scale x_res y_res
        (Attractor.iterate ops attractor st.1) with
    | none =>
      simp only [hpix]
      exact Nat.le_succ _
    | some q =>
      obtain ⟨qx, qy⟩ := q
      simp only [hpix]
      exact Grid.total_bump_le _ _ _

/-- The trajectory loop over a list of step indices accumulates at most one
hit per index at or beyond `draw_after`. -/
theorem attractor_fold_total_le {T : Type} [LinearOrderedField T] [FloorRing T]
    (ops : FloatOps T) (attractor : Attractor T) (centre : Complex T) (scale : T)
    (x_res y_res draw_after : ℕ) :
    ∀ (l : List ℕ) (st : Complex T × Grid y_res x_res),
      ((l.foldl (attractor_step ops attractor centre scale x_res y_res draw_after) st).2).total ≤
        st.2.total + l.countP (fun n => decide (draw_after ≤ n)) := by
  intro l
  induction l with
  | nil => intro st; simp
  | cons n l ih =>
    intro st
    rw [List.foldl_cons]
    calc ((l.foldl (attractor_step ops attractor centre scale x_res y_res draw_after)
            (attractor_step ops attractor centre scale x_res y_res draw_after st n)).2).total
        ≤ ((attractor_step ops attractor centre scale x_res y_res draw_after st n).2).total +
            l.countP (fun n => decide (draw_after ≤ n)) := ih _
      _ ≤ st.2.total + (if draw_after ≤ n then 1 else 0) +
            l.countP (fun n => decide (draw_after ≤ n)) :=
          Nat.add_le_add_right (attractor_step_total_le _ _ _ _ _ _ _ _ _) _
      _ = st.2.total + (n :: l).countP (fun n => decide (draw_after ≤ n)) := by
          rw [List.countP_cons]
          by_cases hN : draw_after ≤ n <;> simp [hN] <;> omega

/-- Counting the indices of `range m` at or beyond `d` gives `m - d`. -/
theorem countP_range_ge (d m : ℕ) :
    (List.range m).countP (fun n => decide (d ≤ n)) = m - d := by
  induction m with
  | zero => simp
  | succ m ih =>
    rw [List.range_succ, List.countP_append, ih]
    by_cases hm : d ≤ m <;> simp [hm] <;> omega

/-- Per-trajectory hit bound: a single trajectory records at most
`max_iter - draw_after` hits. -/
theorem render_attractor_path_total_le {T : Type} [LinearOrderedField T] [FloorRing T]
    (ops : FloatOps T) (start centre : Complex T) (max_iter draw_after : ℕ) (scale : T)
    (x_res y_res : ℕ) (attractor : Attractor T) :
    (render_attractor_path ops start centre max_iter draw_after scale x_res y_res
        attractor).total ≤ max_iter - draw_after := by
  unfold render_attractor_path
  have h := attractor_fold_total_le ops attractor centre scale x_res y_res draw_after
    (List.range max_iter) (start, Grid.zero y_res x_res)
  rw [countP_range_ge] at h
  have hz : (Grid.zero y_res x_res).total = 0 := by simp [Grid.total, Grid.zero]
  simpa [hz] using h

/-- The total of a grid sum is the sum of the totals. -/
theorem Grid.total_add {h w : ℕ} (a b : Grid h w) :
    (Grid.add a b).total = a.total + b.total := by
  unfold Grid.total Grid.add
  rw [← Finset.sum_add_distrib]
  exact Finset.sum_congr rfl fun j _ => Finset.sum_add_distrib

/-- The total of a list reduction is the sum of the element totals. -/
theorem sumGrids_total {h w : ℕ} (l : List (Grid h w)) :
    (sumGrids l).total = (l.map Grid.total).sum := by
  induction l with
  | nil => simp [sumGrids, Grid.total, Grid.zero]
  | cons g l ih =>
    simp only [sumGrids, List.foldr_cons, List.map_cons, List.sum_cons]
    rw [← ih]
    exact Grid.total_add g (sumGrids l)

/-- A list of naturals bounded by `n` sums to at most `n * length`. -/
theorem list_sum_le_length_mul (l : List ℕ) (n : ℕ) (hb : ∀ x ∈ l, x ≤ n) :
    l.sum ≤ n * l.length := by
  induction l with
  | nil => simp
  | cons a l ih =>
    rw [List.sum_cons, List.length_cons, Nat.mul_succ]
    have ha : a ≤ n := hb a (List.mem_cons_self a l)
    have hl : l.sum ≤ n * l.length := ih fun x hx => hb x (List.mem_cons_of_mem a hx)
    omega

/-- C6: with `draw_after ≤ max_iter`, a single trajectory's private grid
holds at most `max_iter - draw_after` hits (steps before `draw_after` are
computed but not recorded), and the reduced grid of `render_attractor` over
the sampled initial positions holds at most
`(max_iter - draw_after) * trajectory_count` hits. -/
theorem attractor_accumulation_bound {T : Type} [LinearOrderedField T] [FloorRing T]
    (ops : FloatOps T) (start centre : Complex T) (max_iter draw_after : ℕ) (scale : T)
    (x_res y_res : ℕ) (attractor : Attractor T) (ps : List (Complex T))
    (hdraw : draw_after ≤ max_iter) :
    (render_attractor_path ops start centre max_iter draw_after scale x_res y_res
        attractor).total ≤ max_iter - draw_after ∧
    (render_attractor_sum ops centre max_iter draw_after scale x_res y_res attractor
        ps).total ≤ (max_iter - draw_after) * ps.length := by
  refine ⟨render_attractor_path_total_le ops start centre max_iter draw_after scale
    x_res y_res attractor, ?_⟩
  unfold render_attractor_sum
  rw [sumGrids_total]
  have hb : ∀ t ∈ (ps.map fun pos =>
      render_attractor_path ops pos centre max_iter draw_after scale x_res y_res
        attractor).map Grid.total, t ≤ max_iter - draw_after := by
    intro t ht
    simp only [List.mem_map] at ht
    obtain ⟨gr, ⟨pos, _, rfl⟩, rfl⟩ := ht
    exact render_attractor_path_total_le ops pos centre max_iter draw_after scale
      x_res y_res attractor
  have := list_sum_le_length_mul _ (max_iter - draw_after) hb
  simpa using this

/-- Witness for `attractor_accumulation_bound` at a concrete configuration. -/
theorem attractor_accumulation_bound_witness :
    (render_attractor_path constOps (Complex.new (0 : ℚ) 0) (Complex.new 0 0) 2 1 4 1 1
        (Attractor.Henon 1 1)).total ≤ 2 - 1 ∧
    (render_attractor_sum constOps (Complex.new (0 : ℚ) 0) 2 1 4 1 1 (Attractor.Henon 1 1)
        [Complex.new 0 0]).total ≤ (2 - 1) * 1 :=
  attractor_accumulation_bound constOps (Complex.new 0 0) (Complex.new 0 0) 2 1 4 1 1
    (Attractor.Henon 1 1) [Complex.new 0 0] (by norm_num)

/-! ## 32-bit accumulation of the supersampler (C10) -/

/-- Folding modular additions over a nonempty list is the plain sum reduced
once modulo `M`. -/
theorem foldl_add_mod (f : ℕ → ℕ) (M : ℕ) :
    ∀ (l : List ℕ) (a : ℕ), l ≠ [] →
      List.foldl (fun acc x => (acc + f x) % M) a l = (a + (l.map f).sum) % M := by
  intro l
  induction l with
  | nil => intro a hne; exact absurd rfl hne
  | cons x xs ih =>
    intro a _
    cases xs with
    | nil => simp
    | cons b bs =>
      rw [List.foldl_cons, ih _ (by simp), Nat.mod_add_mod]
      simp [Nat.add_assoc]

/-- A mapped list sum over `range` is the corresponding `Finset.range` sum. -/
theorem list_range_map_sum (f : ℕ → ℕ) (n : ℕ) :
    ((List.range n).map f).sum = ∑ i ∈ Finset.range n, f i := by
  induction n with
  | zero => simp
  | succ k ih =>
    rw [List.range_succ, List.map_append, List.sum_append, Finset.sum_range_succ, ih]
    simp

/-- Each pixel of `multisample_area` is the exact sample-count sum reduced
modulo `2^32`, divided by the (also `u32`) sample count `samples²`. -/
theorem multisample_pixel_eq {T : Type} [LinearOrderedField T] (ops : FloatOps T)
    (centre : Complex T) (max_iter : ℕ) (scale : T) (x_res y_res : ℕ) (fractal : Fractal T)
    (samples : ℕ) (y : Fin y_res) (x : Fin x_res) (hs : 1 ≤ samples) :
    multisample_area ops centre max_iter scale x_res y_res fractal samples y x =
      subpixel_sum ops centre max_iter scale x_res y_res fractal samples (y : ℕ) (x : ℕ) %
        u32Mod / (samples * samples % u32Mod) := by
  have hr : List.range samples ≠ [] := by
    simp [List.range_eq_nil]
    omega
  have hinner : ∀ (acc i : ℕ),
      (List.range samples).foldl
        (fun acc2 j =>
          (acc2 + subpixel_count ops centre max_iter scale x_res y_res fractal samples
              (y : ℕ) (x : ℕ) i j) % u32Mod)
        acc =
      (acc + ((List.range samples).map fun j =>
        subpixel_count ops centre max_iter scale x_res y_res fractal samples
          (y : ℕ) (x : ℕ) i j).sum) % u32Mod :=
    fun acc i => foldl_add_mod _ _ _ acc hr
  unfold multisample_area
  rw [List.foldl_ext _ _ 0 fun a i _ => hinner a i, foldl_add_mod _ _ _ 0 hr]
  simp only [list_range_map_sum, Nat.zero_add]
  rfl

/-- C10: the `k²` per-pixel counts are accumulated in a 32-bit unsigned sum,
so (for a factor whose square is representable) each output pixel is
`floor((sum of the k² counts mod 2^32) / k²)`, and under the precondition
`k² · max_iter < 2^32` the stored value is the exact truncated average of the
sample counts (no wrap occurs). -/
theorem multisample_u32_truncated_average {T : Type} [LinearOrderedField T] (ops : FloatOps T)
    (centre : Complex T) (max_iter : ℕ) (scale : T) (x_res y_res : ℕ) (fractal : Fractal T)
    (samples : ℕ) (y : Fin y_res) (x : Fin x_res) (h1 : 1 ≤ samples)
    (h2 : samples * samples < u32Mod) :
    multisample_area ops centre max_iter scale x_res y_res fractal samples y x =
      subpixel_sum ops centre max_iter scale x_res y_res fractal samples (y : ℕ) (x : ℕ) %
        u32Mod / (samples * samples) ∧
    (samples * samples * max_iter < u32Mod →
      multisample_area ops centre max_iter scale x_res y_res fractal samples y x =
        subpixel_sum ops centre max_iter scale x_res y_res fractal samples (y : ℕ) (x : ℕ) /
          (samples * samples)) := by
  have hpix := multisample_pixel_eq ops centre max_iter scale x_res y_res fractal samples
    y x h1
  have hmod : samples * samples % u32Mod = samples * samples := Nat.mod_eq_of_lt h2
  constructor
  · rw [hpix, hmod]
  · intro h3
    have hsum_le : subpixel_sum ops centre max_iter scale x_res y_res fractal samples
        (y : ℕ) (x : ℕ) ≤ samples * samples * max_iter := by
      unfold subpixel_sum
      calc (∑ i ∈ Finset.range samples, ∑ j ∈ Finset.range samples,
              subpixel_count ops centre max_iter scale x_res y_res fractal samples
                (y : ℕ) (x : ℕ) i j)
          ≤ ∑ _i ∈ Finset.range samples, ∑ _j ∈ Finset.range samples, max_iter :=
            Finset.sum_le_sum fun i _ => Finset.sum_le_sum fun j _ =>
              Fractal.sample_le _ _ _ _
        _ = samples * samples * max_iter := by
            simp [Finset.sum_const, Finset.card_range, Nat.mul_assoc]
    have hnm : subpixel_sum ops centre max_iter scale x_res y_res fractal samples
        (y : ℕ) (x : ℕ) % u32Mod =
        subpixel_sum ops centre max_iter scale x_res y_res fractal samples (y : ℕ) (x : ℕ) :=
      Nat.mod_eq_of_lt (lt_of_le_of_lt hsum_le h3)
    rw [hpix, hmod, hnm]

/-- Witness for `multisample_u32_truncated_average` at a concrete
configuration. -/
theorem multisample_u32_truncated_average_witness :
    multisample_area constOps (Complex.new (0 : ℚ) 0) 2 4 1 1 Fractal.Mandelbrot 2 0 0 =
      subpixel_sum constOps (Complex.new (0 : ℚ) 0) 2 4 1 1 Fractal.Mandelbrot 2 0 0 %
        u32Mod / (2 * 2) ∧
    (2 * 2 * 2 < u32Mod →
      multisample_area constOps (Complex.new (0 : ℚ) 0) 2 4 1 1 Fractal.Mandelbrot 2 0 0 =
        subpixel_sum constOps (Complex.new (0 : ℚ) 0) 2 4 1 1 Fractal.Mandelbrot 2 0 0 /
          (2 * 2)) :=
  multisample_u32_truncated_average constOps (Complex.new (0 : ℚ) 0) 2 4 1 1
    Fractal.Mandelbrot 2 0 0 (by norm_num) (by norm_num [u32Mod])

end Mandybrot
